import Mathlib

/-!
Verification of the JSON indexing/derivation engine (shadow tree builder,
visibility engine, path mutator, derivation pipeline, projection transform)
against its natural-language specification.  All definitions are shallow
embeddings of the Rust sources in `src/model/shadow_tree.rs`,
`src/model/data_core.rs` and `src/main.rs`.  Rust `String`s are modelled as
`List Char` (Rust iterates by `char`, i.e. by Unicode scalar value, which is
exactly Lean's `Char`); byte-level operations (`&s[..i]` slicing) are modelled
explicitly via `Char.utf8Size`.
-/

/-- Shorthand used throughout: Rust strings are lists of Unicode scalars. -/
def cs (s : String) : List Char := s.toList

/-- Rust `char::is_whitespace` (Unicode `White_Space` property). -/
def rustIsWhitespace (c : Char) : Bool :=
  c.val = 0x09 || c.val = 0x0A || c.val = 0x0B || c.val = 0x0C || c.val = 0x0D ||
  c.val = 0x20 || c.val = 0x85 || c.val = 0xA0 || c.val = 0x1680 ||
  (0x2000 ≤ c.val && c.val ≤ 0x200A) || c.val = 0x2028 || c.val = 0x2029 ||
  c.val = 0x202F || c.val = 0x205F || c.val = 0x3000

/-- Rust `str::trim`: strip leading and trailing whitespace. -/
def rustTrim (s : List Char) : List Char :=
  ((s.dropWhile rustIsWhitespace).reverse.dropWhile rustIsWhitespace).reverse

/-- Helper for `rustContains`: does `pat` occur starting at some position of the
second argument? -/
def containsAux (pat : List Char) : List Char → Bool
  | [] => pat.isEmpty
  | c :: rest => pat.isPrefixOf (c :: rest) || containsAux pat rest

/-- Rust `str::contains(pat)` for a string pattern: substring test. -/
def rustContains (hay pat : List Char) : Bool :=
  containsAux pat hay

/-- The JSON document model (`serde_json::Value`).  Object entries keep the
order in which the document provides them; numbers are modelled as integers
carrying their canonical decimal rendering (floating-point numbers play no
role in any claim). -/
inductive Json : Type where
  | null : Json
  | bool (b : Bool) : Json
  | num (n : Int) : Json
  | str (s : List Char) : Json
  | arr (xs : List Json) : Json
  | obj (entries : List ((List Char) × Json)) : Json

/-- Node type tag, from `shadow_tree.rs` (`NodeKind`). -/
inductive NodeKind : Type where
  | Object | Array | String | Number | Bool | Null
deriving DecidableEq

/-- Flat-index entry, from `shadow_tree.rs` (`JsonTreeNode`). -/
structure JsonTreeNode : Type where
  name : List Char
  path : List Char
  kind : NodeKind
  children : Nat
  preview : List Char
  depth : Nat
  expanded : Bool
  visible : Bool
deriving DecidableEq

/-! ## Shadow Tree Builder (`src/model/shadow_tree.rs`) -/

/-- `kind_of` from `build_shadow_tree`. -/
def kind_of : Json → NodeKind
  | .obj _ => .Object
  | .arr _ => .Array
  | .str _ => .String
  | .num _ => .Number
  | .bool _ => .Bool
  | .null => .Null

/-- `preview_of` from `build_shadow_tree`.  Note that string previews first
`trim` the value, then count code points. -/
def preview_of : Json → List Char
  | .str s =>
      let s := rustTrim s
      if s.length > 32 then
        cs "\"" ++ s.take 32 ++ cs "...\""
      else
        cs "\"" ++ s ++ cs "\""
  | .num n => cs n.repr
  | .bool b => cs (toString b)
  | .null => cs "null"
  | .obj m => cs "\x7b..\x7d (" ++ cs (Nat.repr m.length) ++ cs " keys)"
  | .arr a => cs "[..] (" ++ cs (Nat.repr a.length) ++ cs " items)"

/-- Immediate member count (`children` in `push_node`). -/
def childCount : Json → Nat
  | .obj m => m.length
  | .arr a => a.length
  | _ => 0

/-- `push_node`: the flat-index entry for one document node. -/
def mkNode (name path : List Char) (v : Json) (depth : Nat) : JsonTreeNode :=
  { name := name, path := path, kind := kind_of v, children := childCount v,
    preview := preview_of v, depth := depth, expanded := false, visible := true }

/-- Is every character of the key in `[A-Za-z0-9_]`?  (`is_ascii_alphanumeric`
or underscore; note this is vacuously true for the empty key.) -/
def simpleKeyChar (c : Char) : Bool :=
  (Char.ofNat 0x41 ≤ c && c ≤ Char.ofNat 0x5A) ||
  (Char.ofNat 0x61 ≤ c && c ≤ Char.ofNat 0x7A) ||
  (Char.ofNat 0x30 ≤ c && c ≤ Char.ofNat 0x39) ||
  c = Char.ofNat 0x5F

/-- `k.replace('\x27', "\\\x27")`: escape single quotes in a bracketed key. -/
def escapeQuotes (k : List Char) : List Char :=
  k.flatMap fun c => if c = Char.ofNat 0x27 then [Char.ofNat 0x5C, Char.ofNat 0x27] else [c]

/-- The address suffix appended for an object field named `k`
(dot-notation for `[A-Za-z0-9_]*` keys, bracket-notation otherwise). -/
def fieldSuffix (k : List Char) : List Char :=
  if k.all simpleKeyChar then
    cs "." ++ k
  else
    cs "[\x27" ++ escapeQuotes k ++ cs "\x27]"

/-- The address suffix appended for an array element at position `i`. -/
def idxSuffix (i : Nat) : List Char :=
  cs "[" ++ cs (Nat.repr i) ++ cs "]"

mutual

/-- `walk` from `build_shadow_tree`: push the node itself, then its children. -/
def walk (v : Json) (path name : List Char) (depth : Nat) : List JsonTreeNode :=
  mkNode name path v depth :: walkRest v path depth

/-- Children part of `walk` (the `match v` after `push_node`). -/
def walkRest (v : Json) (path : List Char) (depth : Nat) : List JsonTreeNode :=
  match v with
  | .obj es => walkObj es path depth
  | .arr xs => walkArr xs path 0 depth
  | _ => []

/-- Object branch of `walk`: children in entry order. -/
def walkObj (es : List ((List Char) × Json)) (path : List Char) (depth : Nat) :
    List JsonTreeNode :=
  match es with
  | [] => []
  | (k, c) :: rest =>
      walk c (path ++ fieldSuffix k) k (depth + 1) ++ walkObj rest path depth

/-- Array branch of `walk`: children with running index `i`. -/
def walkArr (xs : List Json) (path : List Char) (i : Nat) (depth : Nat) :
    List JsonTreeNode :=
  match xs with
  | [] => []
  | c :: rest =>
      walk c (path ++ idxSuffix i) (idxSuffix i) (depth + 1) ++ walkArr rest path (i + 1) depth

end

/-- `build_shadow_tree`. -/
def build_shadow_tree (root : Json) : List JsonTreeNode :=
  walk root (cs "$") (cs "$") 0

/-! ## `derive_name_path` (`src/model/data_core.rs`, inside
`build_intermediate_stage2_with_leaf_filter`)

The Rust function enumerates `src.chars()` (so `i` is a character index),
finds the last `.` at bracket depth 0, and then slices `&src[..idx]` — a BYTE
slice at a CHARACTER index.  Byte slicing at a non-boundary index panics, and
at a boundary index other than the dot's byte offset it silently truncates in
the wrong place.  The model makes the byte slice explicit via `Char.utf8Size`;
`none` models the panic. -/

/-- Rust `&s[..n]` byte slicing of a UTF-8 string: `some` of the prefix when
`n` lands on a character boundary, `none` (panic) otherwise (also when `n`
exceeds the byte length). -/
def byteSlice (s : List Char) (n : Nat) : Option (List Char) :=
  if n = 0 then some []
  else
    match s with
    | [] => none
    | c :: rest =>
        if c.utf8Size ≤ n then (byteSlice rest (n - c.utf8Size)).map (c :: ·)
        else none

/-- The scan loop of `derive_name_path`: character index of the last `.` seen
at bracket-nesting depth 0 (depth is an `i32` in the source, hence `Int`). -/
def lastTopDotAux (s : List Char) (depth : Int) (i : Nat) (acc : Option Nat) : Option Nat :=
  match s with
  | [] => acc
  | c :: rest =>
      if c = '[' then lastTopDotAux rest (depth + 1) (i + 1) acc
      else if c = ']' then lastTopDotAux rest (depth - 1) (i + 1) acc
      else if c = '.' && depth = 0 then lastTopDotAux rest depth (i + 1) (some i)
      else lastTopDotAux rest depth (i + 1) acc

/-- Character index of the last top-level `.` of an address. -/
def lastTopDot (s : List Char) : Option Nat :=
  lastTopDotAux s 0 0 none

/-- `derive_name_path`.  Outer `none` models a panic in the byte slice;
`some none` is the function returning `None` (no top-level dot);
`some (some p)` is a returned derived path. -/
def derive_name_path (src : List Char) : Option (Option (List Char)) :=
  match lastTopDot src with
  | none => some none
  | some idx => (byteSlice src idx).map (fun pre => some (pre ++ cs ".name"))

/-! ## `apply_search_filter` (`src/model/data_core.rs`) -/

/-- `apply_search_filter`: note the guard is `filter.trim().is_empty()`, so a
whitespace-only filter also takes the show-all branch. -/
def apply_search_filter (filter : List Char) (nodes : List JsonTreeNode) :
    List JsonTreeNode :=
  if (rustTrim filter).isEmpty then
    nodes.map fun n => { n with visible := true }
  else
    nodes.map fun n =>
      { n with visible := rustContains n.path filter || rustContains n.name filter }

/-! ## Visibility engine: `update_visibility_by_expansion`
(`src/model/data_core.rs`)

The Rust code first marks node 0 visible and all others invisible, then runs
an indexed outer loop `for i in 0..len`; whenever node `i` is `expanded &&
visible` it scans forward from `i + 1`, marking nodes of depth
`parent_depth + 1` visible and breaking at the first node of depth
`<= parent_depth`. -/

/-- The inner `for j in (i+1)..len` loop, acting on the suffix after `i`. -/
def markChildrenAux (pd : Nat) : List JsonTreeNode → List JsonTreeNode
  | [] => []
  | n :: rest =>
      if n.depth = pd + 1 then { n with visible := true } :: markChildrenAux pd rest
      else if n.depth ≤ pd then n :: rest
      else n :: markChildrenAux pd rest

/-- The reset phase: node 0 visible, every other node invisible. -/
def resetVis (l : List JsonTreeNode) : List JsonTreeNode :=
  l.mapIdx fun i n => { n with visible := i == 0 }

/-- One iteration of the outer loop at index `i`. -/
def visStep (l : List JsonTreeNode) (i : Nat) : List JsonTreeNode :=
  match l[i]? with
  | some n =>
      if n.expanded && n.visible then
        l.take (i + 1) ++ markChildrenAux n.depth (l.drop (i + 1))
      else l
  | none => l

/-- `update_visibility_by_expansion`: reset, then the indexed forward pass. -/
def update_visibility_by_expansion (l : List JsonTreeNode) : List JsonTreeNode :=
  (List.range (resetVis l).length).foldl visStep (resetVis l)

theorem markChildrenAux_length (pd : Nat) (l : List JsonTreeNode) :
    (markChildrenAux pd l).length = l.length := by
  induction l with
  | nil => rfl
  | cons n rest ih =>
      simp only [markChildrenAux]
      split
      · simp [ih]
      · split <;> simp [ih]

/-- Recursive reformulation of the outer loop: process the head, then scan the
(possibly child-marked) tail. -/
def scanVis : List JsonTreeNode → List JsonTreeNode
  | [] => []
  | n :: rest =>
      if n.expanded && n.visible then n :: scanVis (markChildrenAux n.depth rest)
      else n :: scanVis rest
termination_by l => l.length
decreasing_by
  · simp [markChildrenAux_length]
  · simp

theorem visStep_cons (n : JsonTreeNode) (l : List JsonTreeNode) (i : Nat) :
    visStep (n :: l) (i + 1) = n :: visStep l i := by
  simp only [visStep, List.getElem?_cons_succ]
  cases h : l[i]? with
  | none => rfl
  | some m =>
      by_cases hc : m.expanded && m.visible
      · simp [hc, List.take_succ_cons, List.drop_succ_cons]
      · simp [hc]

theorem visStep_zero (n : JsonTreeNode) (l : List JsonTreeNode) :
    visStep (n :: l) 0 =
      if n.expanded && n.visible then n :: markChildrenAux n.depth l else n :: l := by
  simp only [visStep, List.getElem?_cons_zero]
  split <;> simp [List.take_succ_cons, List.drop_succ_cons]

theorem foldl_visStep_map_succ (is : List Nat) (n : JsonTreeNode) (l : List JsonTreeNode) :
    (is.map Nat.succ).foldl visStep (n :: l) = n :: is.foldl visStep l := by
  induction is generalizing l with
  | nil => rfl
  | cons i is ih => simpa [visStep_cons] using ih (visStep l i)

theorem foldl_visStep_range :
    ∀ l : List JsonTreeNode, (List.range l.length).foldl visStep l = scanVis l
  | [] => by simp [scanVis]
  | n :: rest => by
      rw [List.length_cons, List.range_succ_eq_map, List.foldl_cons, visStep_zero]
      by_cases h : (n.expanded && n.visible) = true
      · rw [if_pos h]
        have hlen : rest.length = (markChildrenAux n.depth rest).length :=
          (markChildrenAux_length n.depth rest).symm
        rw [hlen, foldl_visStep_map_succ,
          foldl_visStep_range (markChildrenAux n.depth rest)]
        simp [scanVis, h]
      · rw [if_neg h, foldl_visStep_map_succ, foldl_visStep_range rest]
        simp [scanVis, h]
termination_by l => l.length
decreasing_by
  · simp [markChildrenAux_length]
  · simp

/-! ### Pre-order flat indexes as flattened trees

A "pre-order flat index" is exactly the flattening of a tree whose nodes carry
the per-node record data.  `flatten` produces the index with whatever
`visible`/`expanded` flags the records carry (the state on entry to
`update_visibility_by_expansion`); `specFlat` produces the index with the
visibility the specification demands: the root visible, and every other node
visible iff its parent is visible and expanded. -/

/-- A document tree whose every node carries flat-index record data.  The
`depth` field of the carried record is ignored (flattening recomputes it). -/
inductive VTree : Type where
  | mk (data : JsonTreeNode) (kids : List VTree)

mutual

/-- Pre-order flattening at depth `d`, keeping stored flags. -/
def flatten (d : Nat) : VTree → List JsonTreeNode
  | .mk a ks => { a with depth := d } :: flattenL (d + 1) ks

/-- Pre-order flattening of a forest. -/
def flattenL (d : Nat) : List VTree → List JsonTreeNode
  | [] => []
  | t :: ts => flatten d t ++ flattenL d ts

end

mutual

/-- Flattening with root visibility `pv` and every descendant invisible (the
state reached after the reset phase, and the state of a subtree before its
root has been processed by the forward pass). -/
def rvFlat (d : Nat) (pv : Bool) : VTree → List JsonTreeNode
  | .mk a ks => { a with depth := d, visible := pv } :: rvFlatL (d + 1) false ks

/-- Forest version of `rvFlat` (all roots get visibility `pv`). -/
def rvFlatL (d : Nat) (pv : Bool) : List VTree → List JsonTreeNode
  | [] => []
  | t :: ts => rvFlat d pv t ++ rvFlatL d pv ts

end

mutual

/-- Flattening with the specified visibility: the root of the whole index gets
`pv = true`, and each child is visible iff its parent is visible AND expanded
(so a node is visible iff all its proper ancestors are expanded). -/
def specFlat (d : Nat) (pv : Bool) : VTree → List JsonTreeNode
  | .mk a ks =>
      { a with depth := d, visible := pv } :: specFlatL (d + 1) (pv && a.expanded) ks

/-- Forest version of `specFlat`. -/
def specFlatL (d : Nat) (pv : Bool) : List VTree → List JsonTreeNode
  | [] => []
  | t :: ts => specFlat d pv t ++ specFlatL d pv ts

end

/-- Every entry of list `l` that is at the head (if any) has depth `≤ d`. -/
def HeadLe (d : Nat) (l : List JsonTreeNode) : Prop :=
  ∀ x ∈ l.head?, x.depth ≤ d

theorem headLe_nil (d : Nat) : HeadLe d [] := by
  intro x hx; simp at hx

theorem headLe_mono {d d' : Nat} (h : d ≤ d') {l : List JsonTreeNode}
    (hl : HeadLe d l) : HeadLe d' l := by
  intro x hx; exact le_trans (hl x hx) h

mutual

theorem rvFlat_depth_ge (d : Nat) (pv : Bool) (t : VTree) :
    ∀ x ∈ rvFlat d pv t, d ≤ x.depth :=
  match t with
  | .mk a ks => by
      intro x hx
      rw [rvFlat] at hx
      rcases List.mem_cons.mp hx with h | h
      · subst h; simp
      · exact le_trans (Nat.le_succ d) (rvFlatL_depth_ge (d + 1) false ks x h)

theorem rvFlatL_depth_ge (d : Nat) (pv : Bool) (ts : List VTree) :
    ∀ x ∈ rvFlatL d pv ts, d ≤ x.depth :=
  match ts with
  | [] => by intro x hx; rw [rvFlatL] at hx; simp at hx
  | t :: ts' => by
      intro x hx
      rw [rvFlatL] at hx
      rcases List.mem_append.mp hx with h | h
      · exact rvFlat_depth_ge d pv t x h
      · exact rvFlatL_depth_ge d pv ts' x h

end

theorem markChildrenAux_break (pd : Nat) (l : List JsonTreeNode)
    (h : HeadLe pd l) : markChildrenAux pd l = l := by
  cases l with
  | nil => rfl
  | cons n rest =>
      have hd : n.depth ≤ pd := h n (by simp)
      have h1 : ¬ n.depth = pd + 1 := by omega
      simp [markChildrenAux, h1, hd]

theorem markChildrenAux_cons_child (pd : Nat) (y : JsonTreeNode)
    (l : List JsonTreeNode) (hy : y.depth = pd + 1) :
    markChildrenAux pd (y :: l) = { y with visible := true } :: markChildrenAux pd l := by
  simp [markChildrenAux, hy]

theorem markChildrenAux_cons_deep (pd : Nat) (y : JsonTreeNode)
    (l : List JsonTreeNode) (hy : pd + 1 < y.depth) :
    markChildrenAux pd (y :: l) = y :: markChildrenAux pd l := by
  have h1 : ¬ y.depth = pd + 1 := by omega
  have h2 : ¬ y.depth ≤ pd := by omega
  simp [markChildrenAux, h1, h2]

theorem markChildrenAux_skip (pd : Nat) (l1 l2 : List JsonTreeNode)
    (h : ∀ x ∈ l1, pd + 1 < x.depth) :
    markChildrenAux pd (l1 ++ l2) = l1 ++ markChildrenAux pd l2 := by
  induction l1 with
  | nil => rfl
  | cons x l1' ih =>
      rw [List.cons_append, markChildrenAux_cons_deep pd x _ (h x (by simp)),
        ih (fun y hy => h y (List.mem_cons_of_mem x hy)), List.cons_append]

theorem markChildrenAux_forest (d : Nat) (ts : List VTree) (pv : Bool)
    (rest : List JsonTreeNode) (h : HeadLe d rest) :
    markChildrenAux d (rvFlatL (d + 1) pv ts ++ rest) =
      rvFlatL (d + 1) true ts ++ rest := by
  induction ts with
  | nil =>
      simp only [rvFlatL, List.nil_append]
      exact markChildrenAux_break d rest h
  | cons t ts' ih =>
      cases t with
      | mk a ks =>
          simp only [rvFlatL, rvFlat, List.cons_append, List.append_assoc]
          rw [markChildrenAux_cons_child d _ _ rfl,
            markChildrenAux_skip d _ _
              (fun y hy => lt_of_lt_of_le (by omega)
                (rvFlatL_depth_ge (d + 1 + 1) false ks y hy)),
            ih]

theorem scanVis_nil : scanVis [] = [] := by
  rw [scanVis]

theorem scanVis_cons (n : JsonTreeNode) (l : List JsonTreeNode) :
    scanVis (n :: l) =
      if n.expanded && n.visible then n :: scanVis (markChildrenAux n.depth l)
      else n :: scanVis l := by
  rw [scanVis]

theorem headLe_rvFlatL (d : Nat) (pv : Bool) (ts : List VTree)
    (rest : List JsonTreeNode) (h : HeadLe d rest) :
    HeadLe d (rvFlatL d pv ts ++ rest) := by
  cases ts with
  | nil => simpa [rvFlatL] using h
  | cons t ts' =>
      cases t with
      | mk a ks =>
          intro x hx
          simp only [rvFlatL, rvFlat, List.cons_append, List.head?_cons,
            Option.mem_def, Option.some.injEq] at hx
          subst hx
          simp

mutual

theorem scanVis_rvFlat : ∀ (t : VTree) (d : Nat) (pv : Bool)
    (rest : List JsonTreeNode), HeadLe d rest →
    scanVis (rvFlat d pv t ++ rest) = specFlat d pv t ++ scanVis rest
  | .mk a ks, d, pv, rest, h => by
      rw [rvFlat, specFlat, List.cons_append, List.cons_append, scanVis_cons]
      cases hE : a.expanded <;> cases hP : pv <;>
        simp only [hE, hP, Bool.and_self, Bool.and_true, Bool.and_false,
          Bool.true_and, Bool.false_and, if_true, if_false, List.cons.injEq,
          true_and, if_neg, Bool.false_eq_true, not_false_eq_true]
      · exact scanVis_rvFlatL ks (d + 1) false rest (headLe_mono (Nat.le_succ d) h)
      · exact scanVis_rvFlatL ks (d + 1) false rest (headLe_mono (Nat.le_succ d) h)
      · exact scanVis_rvFlatL ks (d + 1) false rest (headLe_mono (Nat.le_succ d) h)
      · rw [markChildrenAux_forest d ks false rest h]
        exact scanVis_rvFlatL ks (d + 1) true rest (headLe_mono (Nat.le_succ d) h)

theorem scanVis_rvFlatL : ∀ (ts : List VTree) (d : Nat) (pv : Bool)
    (rest : List JsonTreeNode), HeadLe d rest →
    scanVis (rvFlatL d pv ts ++ rest) = specFlatL d pv ts ++ scanVis rest
  | [], d, pv, rest, h => by
      rw [rvFlatL, specFlatL, List.nil_append, List.nil_append]
  | t :: ts', d, pv, rest, h => by
      rw [rvFlatL, specFlatL, List.append_assoc, List.append_assoc,
        scanVis_rvFlat t d pv _ (headLe_rvFlatL d pv ts' rest h),
        scanVis_rvFlatL ts' d pv rest h]

end

theorem mapIdx_const_false (f : Nat → JsonTreeNode → JsonTreeNode)
    (hf : ∀ i n, f i n = { n with visible := false }) :
    ∀ xs : List JsonTreeNode, List.mapIdx f xs = xs.map fun n => { n with visible := false }
  | [] => by simp
  | x :: xs => by
      rw [List.mapIdx_cons, List.map_cons, hf 0 x,
        mapIdx_const_false (fun i => f (i + 1)) (fun i n => hf (i + 1) n) xs]

theorem resetVis_cons (x : JsonTreeNode) (xs : List JsonTreeNode) :
    resetVis (x :: xs) =
      { x with visible := true } :: (xs.map fun n => { n with visible := false }) := by
  rw [resetVis, List.mapIdx_cons,
    mapIdx_const_false (fun i n => { n with visible := (i + 1) == 0 })
      (fun i n => by simp) xs]
  rfl

mutual

theorem flatten_map_invis : ∀ (t : VTree) (d : Nat),
    (flatten d t).map (fun n => { n with visible := false }) = rvFlat d false t
  | .mk a ks, d => by
      rw [flatten, rvFlat, List.map_cons, flattenL_map_invis ks (d + 1)]

theorem flattenL_map_invis : ∀ (ts : List VTree) (d : Nat),
    (flattenL d ts).map (fun n => { n with visible := false }) = rvFlatL d false ts
  | [], d => by rw [flattenL, rvFlatL]; rfl
  | t :: ts', d => by
      rw [flattenL, rvFlatL, List.map_append, flatten_map_invis t d,
        flattenL_map_invis ts' d]

end

theorem resetVis_flatten (t : VTree) :
    resetVis (flatten 0 t) = rvFlat 0 true t := by
  cases t with
  | mk a ks =>
      rw [flatten, rvFlat, resetVis_cons, flattenL_map_invis ks 1]

/-- Claim C1: after `update_visibility_by_expansion` on a pre-order flat index
(modelled as the flattening of an arbitrary node tree, with arbitrary stored
`expanded`/`visible` flags), the resulting flags are exactly `specFlat 0 true`:
node 0 (the root) is visible unconditionally, and every other node is visible
iff its parent is both visible and expanded — equivalently, iff all its proper
ancestors are expanded (`specFlat` threads `pv && expanded` down each edge,
starting from `true` at the root).  The single indexed forward pass
(`List.range … |>.foldl visStep`) establishes this with no fixpoint
iteration. -/
theorem update_visibility_by_expansion_correct (t : VTree) :
    update_visibility_by_expansion (flatten 0 t) = specFlat 0 true t := by
  unfold update_visibility_by_expansion
  rw [foldl_visStep_range (resetVis (flatten 0 t)), resetVis_flatten]
  have h := scanVis_rvFlat t 0 true [] (headLe_nil 0)
  rw [List.append_nil, scanVis_nil, List.append_nil] at h
  exact h

/-! ## Claim C9: `apply_search_filter` -/

/-- Spec-side visibility after `applyFilter`, as amended: an empty OR
whitespace-only filter shows every node; any other filter sets visibility to
the substring test on address or name (replacing, not intersecting with,
expansion-derived visibility — the formula does not read the old flag). -/
def specFilterVisible (filter : List Char) (n : JsonTreeNode) : Bool :=
  if (rustTrim filter).isEmpty then true
  else rustContains n.path filter || rustContains n.name filter

/-- A sample node used by concrete counterexamples: field `a` of `{"a": 1}`. -/
def sampleNodeA : JsonTreeNode :=
  { name := cs "a", path := cs "$.a", kind := .Number, children := 0,
    preview := cs "1", depth := 1, expanded := false, visible := false }

/-- Claim C9, counterexample: for the whitespace-only filter `" "` the claim
says every node's `visible` becomes `(address contains " ") OR (name contains
" ")`, which is `false` for the node `$.a`; the code instead takes the
`filter.trim().is_empty()` branch and sets `visible = true`. -/
theorem apply_search_filter_whitespace_cex :
    (apply_search_filter (cs " ") [sampleNodeA]).map (·.visible) = [true] ∧
    (rustContains sampleNodeA.path (cs " ") || rustContains sampleNodeA.name (cs " "))
      = false := by
  constructor
  · rfl
  · rfl

/-- Claim C9 (amended): `apply_search_filter` sets every node's `visible` flag
to exactly `specFilterVisible`: all-true when the filter is empty or
whitespace-only, and the substring test `(address contains text) OR (name
contains text)` otherwise, replacing any expansion-derived visibility. -/
theorem apply_search_filter_spec (filter : List Char) (nodes : List JsonTreeNode) :
    apply_search_filter filter nodes =
      nodes.map fun n => { n with visible := specFilterVisible filter n } := by
  by_cases hC : (rustTrim filter).isEmpty
  · simp [apply_search_filter, specFilterVisible, hC]
  · simp [apply_search_filter, specFilterVisible, hC]

/-! ## Claim C7: `preview_of` -/

/-- Spec-side preview, as amended: a string value is first trimmed of leading
and trailing whitespace; if the trimmed value exceeds 32 code points it is
truncated to its first 32 code points followed by the ellipsis marker `...`
and quoted, otherwise the trimmed value is quoted; numbers and booleans render
canonically; `null` renders as the literal `null`; objects render as a
count-of-keys summary and arrays as a count-of-items summary. -/
def specPreview : Json → List Char
  | .str s =>
      let t := rustTrim s
      if t.length > 32 then cs "\"" ++ (t.take 32 ++ cs "...") ++ cs "\""
      else cs "\"" ++ t ++ cs "\""
  | .num n => cs n.repr
  | .bool b => cs (toString b)
  | .null => cs "null"
  | .obj m => cs "\x7b..\x7d (" ++ cs (Nat.repr m.length) ++ cs " keys)"
  | .arr a => cs "[..] (" ++ cs (Nat.repr a.length) ++ cs " items)"

/-- Claim C7, counterexample: the claim says a string of at most 32 code
points is quoted verbatim (character-for-character unchanged), but the code
trims first: the 3-character string `" a "` previews as `"a"`, not `" a "`. -/
theorem preview_of_trim_cex :
    preview_of (.str (cs " a ")) = cs "\"a\"" ∧ cs "\"a\"" ≠ cs "\" a \"" := by
  constructor
  · rfl
  · decide

/-- Claim C7 (amended): `preview_of` agrees with `specPreview` on every
document node — the string case quotes the TRIMMED value (truncating the
trimmed value at 32 code points), and the other cases are as claimed. -/
theorem preview_of_spec (v : Json) : preview_of v = specPreview v := by
  cases v with
  | str s =>
      have hlit : cs "...\"" = cs "..." ++ cs "\"" := by decide
      by_cases h : (rustTrim s).length > 32
      · simp only [preview_of, specPreview, if_pos h, hlit, List.append_assoc]
      · simp only [preview_of, specPreview, if_neg h]
  | null => rfl
  | bool b => rfl
  | num n => rfl
  | arr xs => rfl
  | obj es => rfl

/-! ## Claims C2 and C10: the derived sibling name address -/

/-- The name-path selection of the stage-2 item builder
(`build_intermediate_stage2_with_leaf_filter`, items loop): a node whose field
name is already `name` uses its own address; otherwise `derive_name_path` is
consulted, falling back to the node's own address when it returns `None`.
`none` propagates a panic from the byte slice inside `derive_name_path`. -/
def stage2NamePath (name path : List Char) : Option (List Char) :=
  if name = cs "name" then some path
  else
    match derive_name_path path with
    | none => none
    | some (some np) => some np
    | some none => some path

/-- Claim C10: `derive_name_path` is NOT total — on the address
`$['中文'].title` (a bracketed non-ASCII key) the last top-level `.` has
character index 7, and `&src[..7]` slices at byte 7, which is in the middle of
the second multi-byte character: the code panics (modelled as `none`). -/
theorem derive_name_path_panic_cex :
    derive_name_path (cs "$['中文'].title") = none := by
  decide

/-- Claim C2: for the node `y` at address `$.中中x.y` the last top-level `.`
has character index 5, and `&src[..5]` happens to hit a character boundary, so
the code silently derives `$.中.name` — NOT the claimed truncation
`$.中中x.name` just before the last top-level dot.  The claim's own ASCII
examples do hold: `$.items[2].title ↦ $.items[2].name`, and `$.name ↦ $.name`
(field name already `name`). -/
theorem stage2NamePath_byte_mismatch_cex :
    stage2NamePath (cs "y") (cs "$.中中x.y") = some (cs "$.中.name") ∧
    cs "$.中.name" ≠ cs "$.中中x.name" ∧
    stage2NamePath (cs "title") (cs "$.items[2].title") = some (cs "$.items[2].name") ∧
    stage2NamePath (cs "name") (cs "$.name") = some (cs "$.name") := by
  refine ⟨by rfl, by decide, by rfl, by rfl⟩

/-! ## Claim C3: `build_intermediate_stage2_with_leaf_filter`
(`src/model/data_core.rs`)

The pipeline is modelled over the flat index (`tree_flat`, a list of
`JsonTreeNode`) and a resolver `resolve : address → Option Json` standing for
`dom.query(path)` followed by  `.into_iter().next()` (the external
`jsonpath_rust` engine; it is deterministic, so the per-path cache
`path_to_value` is modelled as `cacheGet` over the collected path set).  The
progress callback is effect-only and plays no role in the result.  `none`
models a panic propagating out of `derive_name_path`; `some none` models the
empty-filter short-circuit (which returns `""` rather than an artifact). -/

/-- Lowercase hex digit (serde escapes control characters as `\u00XX`). -/
def hexDigit (n : Nat) : Char :=
  if n < 10 then Char.ofNat (0x30 + n) else Char.ofNat (0x61 + (n - 10))

/-- serde-style escape of one character inside a JSON string literal. -/
def escapeJsonChar (c : Char) : List Char :=
  if c = Char.ofNat 0x22 then [Char.ofNat 0x5C, Char.ofNat 0x22]
  else if c = Char.ofNat 0x5C then [Char.ofNat 0x5C, Char.ofNat 0x5C]
  else if c = Char.ofNat 0x08 then [Char.ofNat 0x5C, Char.ofNat 0x62]
  else if c = Char.ofNat 0x09 then [Char.ofNat 0x5C, Char.ofNat 0x74]
  else if c = Char.ofNat 0x0A then [Char.ofNat 0x5C, Char.ofNat 0x6E]
  else if c = Char.ofNat 0x0C then [Char.ofNat 0x5C, Char.ofNat 0x66]
  else if c = Char.ofNat 0x0D then [Char.ofNat 0x5C, Char.ofNat 0x72]
  else if c.val < 0x20 then
    cs "\\u00" ++ [hexDigit (c.val.toNat / 16), hexDigit (c.val.toNat % 16)]
  else [c]

/-- Escape a whole string body. -/
def jsonEscapeList (s : List Char) : List Char :=
  s.flatMap escapeJsonChar

mutual

/-- Compact serialization (`serde_json::Value::to_string`), used by the stage-2
item builder for non-string resolved values. -/
def jsonCompact : Json → List Char
  | .null => cs "null"
  | .bool b => cs (toString b)
  | .num n => cs n.repr
  | .str s => cs "\"" ++ jsonEscapeList s ++ cs "\""
  | .arr xs => cs "[" ++ jsonCompactArr xs ++ cs "]"
  | .obj es => cs "\x7b" ++ jsonCompactObj es ++ cs "\x7d"

/-- Comma-separated serialization of array elements. -/
def jsonCompactArr : List Json → List Char
  | [] => []
  | [x] => jsonCompact x
  | x :: rest => jsonCompact x ++ cs "," ++ jsonCompactArr rest

/-- Comma-separated serialization of object entries. -/
def jsonCompactObj : List ((List Char) × Json) → List Char
  | [] => []
  | [(k, v)] => cs "\"" ++ jsonEscapeList k ++ cs "\":" ++ jsonCompact v
  | (k, v) :: rest =>
      cs "\"" ++ jsonEscapeList k ++ cs "\":" ++ jsonCompact v ++ cs "," ++
        jsonCompactObj rest

end

/-- Scalar-kind test from the leaf-only selection
(`matches!(node.kind, String | Number | Bool | Null)`). -/
def isScalarKind : NodeKind → Bool
  | .String | .Number | .Bool | .Null => true
  | _ => false

/-- Node selection of the stage-2 pipeline (`should_include`). -/
def stage2Qualifies (leafOnly : Bool) (filter : List Char) (n : JsonTreeNode) : Bool :=
  if leafOnly then
    n.visible && rustContains n.name filter && isScalarKind n.kind
  else
    n.visible && (rustContains n.path filter || rustContains n.name filter)

/-- The path-collection loop (`paths_to_query`): each matched node's own
address, plus its derived name address when its field name is not `name` and
derivation succeeds.  `none` propagates the `derive_name_path` panic. -/
def collectPaths : List JsonTreeNode → Option (List (List Char))
  | [] => some []
  | n :: rest =>
      if n.name = cs "name" then (collectPaths rest).map (n.path :: ·)
      else
        match derive_name_path n.path with
        | none => none
        | some none => (collectPaths rest).map (n.path :: ·)
        | some (some np) => (collectPaths rest).map (fun l => n.path :: np :: l)

/-- The query cache `path_to_value`: defined on exactly the collected paths,
holding the resolver's answer (`dom.query(path)` is deterministic, so batch
insertion order is irrelevant). -/
def cacheGet (resolve : List Char → Option Json) (pathsQ : List (List Char))
    (p : List Char) : Option (Option Json) :=
  if p ∈ pathsQ then some (resolve p) else none

/-- Value-to-text conversion used for both `current_value_str` and
`name_value_str`: a string value is used as-is, any other value is
compact-serialized, an unresolved value becomes the empty string. -/
def stage2ValueText : Option Json → List Char
  | some (.str s) => s
  | some v => jsonCompact v
  | none => []

/-- One emitted stage-2 item (`seq` is patched in afterwards by the
enumeration pass, exactly as in the source). -/
structure Stage2Item : Type where
  source_path : List Char
  name_path : List Char
  name : List Char
  field_name : List Char
  name_field_value : List Char
  seq : Nat
deriving DecidableEq

/-- The stage-2 artifact `{stage: "intermediate2", filter, count, items}`
(the constant `stage` tag is omitted). -/
structure Stage2Artifact : Type where
  filter : List Char
  count : Nat
  items : List Stage2Item
deriving DecidableEq

/-- The item-building loop body for one matched node (`seq` still 0 here). -/
def buildItem (resolve : List Char → Option Json) (pathsQ : List (List Char))
    (n : JsonTreeNode) : Option Stage2Item :=
  let cur : Option Json := (cacheGet resolve pathsQ n.path).join
  if n.name = cs "name" then
    some { source_path := n.path, name_path := n.path,
           name := stage2ValueText cur, field_name := n.name,
           name_field_value := stage2ValueText cur, seq := 0 }
  else
    match derive_name_path n.path with
    | none => none
    | some (some np) =>
        some { source_path := n.path, name_path := np,
               name := stage2ValueText cur, field_name := n.name,
               name_field_value := stage2ValueText ((cacheGet resolve pathsQ np).join),
               seq := 0 }
    | some none =>
        some { source_path := n.path, name_path := n.path,
               name := stage2ValueText cur, field_name := n.name,
               name_field_value := stage2ValueText none, seq := 0 }

/-- `build_intermediate_stage2_with_leaf_filter`: select, collect+query,
build items, then number them contiguously from 0. -/
def build_intermediate_stage2_with_leaf_filter
    (resolve : List Char → Option Json) (nodes : List JsonTreeNode)
    (filter : List Char) (leaf_nodes_only : Bool) :
    Option (Option Stage2Artifact) :=
  if (rustTrim filter).isEmpty then some none
  else
    match collectPaths (nodes.filter (stage2Qualifies leaf_nodes_only filter)) with
    | none => none
    | some pathsQ =>
        match (nodes.filter (stage2Qualifies leaf_nodes_only filter)).mapM
            (buildItem resolve pathsQ) with
        | none => none
        | some items0 =>
            some (some { filter := filter,
                         count := (items0.mapIdx fun i it => { it with seq := i }).length,
                         items := items0.mapIdx fun i it => { it with seq := i } })

/-- `build_intermediate_stage2` delegates with `leaf_nodes_only = false`. -/
def build_intermediate_stage2 (resolve : List Char → Option Json)
    (nodes : List JsonTreeNode) (filter : List Char) :
    Option (Option Stage2Artifact) :=
  build_intermediate_stage2_with_leaf_filter resolve nodes filter false

theorem buildItem_source_path (resolve : List Char → Option Json)
    (pathsQ : List (List Char)) (n : JsonTreeNode) (it : Stage2Item)
    (h : buildItem resolve pathsQ n = some it) : it.source_path = n.path := by
  unfold buildItem at h
  split at h
  · injection h with h'; rw [← h']
  · split at h
    · exact absurd h (by simp)
    · injection h with h'; rw [← h']
    · injection h with h'; rw [← h']

theorem mapM_buildItem_paths (resolve : List Char → Option Json)
    (pathsQ : List (List Char)) :
    ∀ (ns : List JsonTreeNode) (out : List Stage2Item),
      ns.mapM (buildItem resolve pathsQ) = some out →
      out.map (·.source_path) = ns.map (·.path)
  | [], out, h => by
      simp only [List.mapM_nil, pure, Option.some.injEq] at h
      rw [← h]; rfl
  | n :: ns, out, h => by
      rw [List.mapM_cons] at h
      cases hi : buildItem resolve pathsQ n with
      | none => rw [hi] at h; exact absurd h (by simp [Option.bind])
      | some it =>
          rw [hi] at h
          cases hm : ns.mapM (buildItem resolve pathsQ) with
          | none => rw [hm] at h; exact absurd h (by simp [Option.bind])
          | some rest =>
              rw [hm] at h
              simp only [Option.bind_eq_bind, Option.some_bind, pure,
                Option.some.injEq] at h
              rw [← h, List.map_cons, List.map_cons,
                buildItem_source_path resolve pathsQ n it hi,
                mapM_buildItem_paths resolve pathsQ ns rest hm]

theorem mapIdx_field (f : Nat → Stage2Item → Stage2Item)
    (proj : Stage2Item → List Char) (hf : ∀ i it, proj (f i it) = proj it) :
    ∀ l : List Stage2Item, (List.mapIdx f l).map proj = l.map proj
  | [] => by simp
  | x :: xs => by
      rw [List.mapIdx_cons, List.map_cons, List.map_cons, hf 0 x,
        mapIdx_field (fun i => f (i + 1)) proj (fun i it => hf (i + 1) it) xs]

theorem mapIdx_seq_eq (f : Nat → Stage2Item → Stage2Item) (g : Nat → Nat)
    (hf : ∀ i it, (f i it).seq = g i) :
    ∀ l : List Stage2Item, (List.mapIdx f l).map (·.seq) = (List.range l.length).map g
  | [] => by simp
  | x :: xs => by
      rw [List.mapIdx_cons, List.map_cons, hf 0 x, List.length_cons,
        List.range_succ_eq_map, List.map_cons, List.map_map,
        mapIdx_seq_eq (fun i => f (i + 1)) (fun i => g (i + 1))
          (fun i it => hf (i + 1) it) xs]
      rfl

/-- Claim C3: whenever `build_intermediate_stage2_with_leaf_filter` produces
an artifact (non-empty filter, no panic), its `count` equals the number of
items, each item's `seq` equals its zero-based position in the emitted order
(`map seq = range n`, contiguous and gapless, never read from the document),
and the items' source addresses are exactly the qualifying nodes of the flat
index in index order (so the emitted order is the pre-order index order). -/
theorem build_intermediate_stage2_items
    (resolve : List Char → Option Json) (nodes : List JsonTreeNode)
    (filter : List Char) (leafOnly : Bool) (art : Stage2Artifact)
    (h : build_intermediate_stage2_with_leaf_filter resolve nodes filter leafOnly
          = some (some art)) :
    art.count = art.items.length ∧
    art.items.map (·.seq) = List.range art.items.length ∧
    art.items.map (·.source_path) =
      (nodes.filter (stage2Qualifies leafOnly filter)).map (·.path) := by
  unfold build_intermediate_stage2_with_leaf_filter at h
  by_cases hf : (rustTrim filter).isEmpty
  · rw [if_pos hf] at h; exact absurd h (by simp)
  · rw [if_neg hf] at h
    split at h
    · exact absurd h (by simp)
    next pathsQ hc =>
        split at h
        · exact absurd h (by simp)
        next items0 hm =>
            simp only [Option.some.injEq] at h
            subst h
            refine ⟨rfl, ?_, ?_⟩
            · show (items0.mapIdx fun i it => { it with seq := i }).map (·.seq)
                = List.range (items0.mapIdx fun i it => { it with seq := i }).length
              have hs := mapIdx_seq_eq (fun i it => { it with seq := i }) id
                (fun i it => rfl) items0
              simp only [List.map_id] at hs
              rw [List.length_mapIdx]
              exact hs
            · show (items0.mapIdx fun i it => { it with seq := i }).map (·.source_path)
                = (nodes.filter (stage2Qualifies leafOnly filter)).map (·.path)
              rw [mapIdx_field (fun i it => { it with seq := i })
                (·.source_path) (fun i it => rfl) items0]
              exact mapM_buildItem_paths resolve pathsQ _ items0 hm

/-- Concrete resolver for the C3 witness: the document
`{"x": {"name": "A"}, "y": {"name": "B"}}`, restricted to the two name
addresses the pipeline queries. -/
def wResolveC3 : List Char → Option Json := fun p =>
  if p = cs "$.x.name" then some (.str (cs "A"))
  else if p = cs "$.y.name" then some (.str (cs "B"))
  else none

/-- Concrete flat index for the C3 witness (the pre-order index of the
document above). -/
def wNodesC3 : List JsonTreeNode :=
  [ { name := cs "$", path := cs "$", kind := .Object, children := 2,
      preview := cs "", depth := 0, expanded := false, visible := true },
    { name := cs "x", path := cs "$.x", kind := .Object, children := 1,
      preview := cs "", depth := 1, expanded := false, visible := true },
    { name := cs "name", path := cs "$.x.name", kind := .String, children := 0,
      preview := cs "", depth := 2, expanded := false, visible := true },
    { name := cs "y", path := cs "$.y", kind := .Object, children := 1,
      preview := cs "", depth := 1, expanded := false, visible := true },
    { name := cs "name", path := cs "$.y.name", kind := .String, children := 0,
      preview := cs "", depth := 2, expanded := false, visible := true } ]

/-- The artifact the pipeline produces on the C3 witness inputs. -/
def wArtC3 : Stage2Artifact :=
  { filter := cs "name", count := 2,
    items :=
      [ { source_path := cs "$.x.name", name_path := cs "$.x.name",
          name := cs "A", field_name := cs "name", name_field_value := cs "A",
          seq := 0 },
        { source_path := cs "$.y.name", name_path := cs "$.y.name",
          name := cs "B", field_name := cs "name", name_field_value := cs "B",
          seq := 1 } ] }

/-- Witness for claim C3: the pipeline on `{"x":{"name":"A"},"y":{"name":"B"}}`
with filter `name` produces an artifact with `count = 2`, seq values `0, 1`,
and items in index order. -/
theorem build_intermediate_stage2_items_witness :
    build_intermediate_stage2_with_leaf_filter wResolveC3 wNodesC3 (cs "name") false
      = some (some wArtC3) ∧
    (wArtC3.count = wArtC3.items.length ∧
     wArtC3.items.map (·.seq) = List.range wArtC3.items.length ∧
     wArtC3.items.map (·.source_path) =
       (wNodesC3.filter (stage2Qualifies false (cs "name"))).map (·.path)) :=
  ⟨by decide,
   build_intermediate_stage2_items wResolveC3 wNodesC3 (cs "name") false wArtC3
     (by decide)⟩

/-! ## Claim C4: `update_node_from_str` (`src/model/data_core.rs`)

The address engine (`jsonpath_rust`: `query_only_path` + `reference_mut`) is
an external crate; for the direct root/field/index addresses produced by the
shadow-tree builder (the only address shape the engine's `reference_mut`
supports, per the source comment) a query resolves to at most one location.
Addresses are therefore modelled structurally as segment lists; `getPath`
models first-match resolution, `setPath` models `reference_mut` followed by
the slot assignment. -/

/-- One address segment: `.field` / `['field']` access, or `[index]`. -/
inductive PathSeg : Type where
  | field (k : List Char)
  | index (i : Nat)
deriving DecidableEq

/-- First entry of an object with the given key. -/
def lookupEntry : List ((List Char) × Json) → List Char → Option Json
  | [], _ => none
  | (k', v) :: rest, k => if k' = k then some v else lookupEntry rest k

/-- Resolve an address against a document (first match). -/
def getPath : List PathSeg → Json → Option Json
  | [], v => some v
  | .field k :: rest, .obj es =>
      match lookupEntry es k with
      | some c => getPath rest c
      | none => none
  | .index i :: rest, .arr xs =>
      match xs[i]? with
      | some c => getPath rest c
      | none => none
  | _, _ => none

mutual

/-- Replace the value at an address (`reference_mut` + assignment):
`some` of the updated document, or `none` when the location is absent. -/
def setPath : List PathSeg → Json → Json → Option Json
  | [], _, repl => some repl
  | .field k :: rest, .obj es, repl => (setEntry es k rest repl).map Json.obj
  | .index i :: rest, .arr xs, repl => (setIdx xs i rest repl).map Json.arr
  | _, _, _ => none

/-- Update the entry with key `k` (first match) at the remaining path. -/
def setEntry (es : List ((List Char) × Json)) (k : List Char)
    (segs : List PathSeg) (repl : Json) : Option (List ((List Char) × Json)) :=
  match es with
  | [] => none
  | (k', v) :: restE =>
      if k' = k then (setPath segs v repl).map (fun v' => (k', v') :: restE)
      else (setEntry restE k segs repl).map ((k', v) :: ·)

/-- Update the element at position `i` at the remaining path. -/
def setIdx (xs : List Json) (i : Nat) (segs : List PathSeg) (repl : Json) :
    Option (List Json) :=
  match xs, i with
  | [], _ => none
  | x :: restX, 0 => (setPath segs x repl).map (· :: restX)
  | x :: restX, i + 1 => (setIdx restX i segs repl).map (x :: ·)

end

/-- Session state (`AppState`). -/
structure AppState : Type where
  source_path : Option (List Char)
  original_file_path : Option (List Char)
  dom : Option Json
  tree_flat : List JsonTreeNode

/-- `update_node_from_str`: fail when no document is loaded or the address
does not resolve; otherwise store `Json.str new_json` (the text is NEVER
parsed) at the resolved location and rebuild the whole flat index from the
mutated document before returning. -/
def update_node_from_str (st : AppState) (json_path : List PathSeg)
    (new_json : List Char) : Option AppState :=
  match st.dom with
  | none => none
  | some dom =>
      match getPath json_path dom with
      | none => none
      | some _ =>
          match setPath json_path dom (Json.str new_json) with
          | none => none
          | some dom' =>
              some { st with dom := some dom',
                             tree_flat := build_shadow_tree dom' }

mutual

theorem getPath_setPath : ∀ (segs : List PathSeg) (dom repl dom' : Json),
    setPath segs dom repl = some dom' → getPath segs dom' = some repl
  | [], dom, repl, dom', h => by
      simp only [setPath, Option.some.injEq] at h
      rw [← h]; rfl
  | .field k :: rest, dom, repl, dom', h => by
      cases dom with
      | obj es =>
          simp only [setPath] at h
          cases hse : setEntry es k rest repl with
          | none => rw [hse] at h; exact absurd h (by simp)
          | some es' =>
              rw [hse] at h
              simp only [Option.map_some', Option.some.injEq] at h
              rw [← h]
              obtain ⟨v', hl, hg⟩ := getPath_setEntry es k rest repl es' hse
              simp only [getPath, hl]
              exact hg
      | null => exact absurd h (by simp [setPath])
      | bool b => exact absurd h (by simp [setPath])
      | num n => exact absurd h (by simp [setPath])
      | str s => exact absurd h (by simp [setPath])
      | arr xs => exact absurd h (by simp [setPath])
  | .index i :: rest, dom, repl, dom', h => by
      cases dom with
      | arr xs =>
          simp only [setPath] at h
          cases hsi : setIdx xs i rest repl with
          | none => rw [hsi] at h; exact absurd h (by simp)
          | some xs' =>
              rw [hsi] at h
              simp only [Option.map_some', Option.some.injEq] at h
              rw [← h]
              obtain ⟨v', hl, hg⟩ := getPath_setIdx xs i rest repl xs' hsi
              simp only [getPath, hl]
              exact hg
      | null => exact absurd h (by simp [setPath])
      | bool b => exact absurd h (by simp [setPath])
      | num n => exact absurd h (by simp [setPath])
      | str s => exact absurd h (by simp [setPath])
      | obj es => exact absurd h (by simp [setPath])

theorem getPath_setEntry : ∀ (es : List ((List Char) × Json)) (k : List Char)
    (segs : List PathSeg) (repl : Json) (es' : List ((List Char) × Json)),
    setEntry es k segs repl = some es' →
    ∃ v', lookupEntry es' k = some v' ∧ getPath segs v' = some repl
  | [], k, segs, repl, es', h => absurd h (by simp [setEntry])
  | (k', v) :: restE, k, segs, repl, es', h => by
      simp only [setEntry] at h
      by_cases hk : k' = k
      · rw [if_pos hk] at h
        cases hsp : setPath segs v repl with
        | none => rw [hsp] at h; exact absurd h (by simp)
        | some v0 =>
            rw [hsp] at h
            simp only [Option.map_some', Option.some.injEq] at h
            refine ⟨v0, ?_, getPath_setPath segs v repl v0 hsp⟩
            rw [← h]
            simp [lookupEntry, hk]
      · rw [if_neg hk] at h
        cases hse : setEntry restE k segs repl with
        | none => rw [hse] at h; exact absurd h (by simp)
        | some es'' =>
            rw [hse] at h
            simp only [Option.map_some', Option.some.injEq] at h
            obtain ⟨v', hl, hg⟩ := getPath_setEntry restE k segs repl es'' hse
            refine ⟨v', ?_, hg⟩
            rw [← h]
            simp [lookupEntry, hk, hl]

theorem getPath_setIdx : ∀ (xs : List Json) (i : Nat) (segs : List PathSeg)
    (repl : Json) (xs' : List Json),
    setIdx xs i segs repl = some xs' →
    ∃ v', xs'[i]? = some v' ∧ getPath segs v' = some repl
  | [], i, segs, repl, xs', h => absurd h (by simp [setIdx])
  | x :: restX, 0, segs, repl, xs', h => by
      simp only [setIdx] at h
      cases hsp : setPath segs x repl with
      | none => rw [hsp] at h; exact absurd h (by simp)
      | some v0 =>
          rw [hsp] at h
          simp only [Option.map_some', Option.some.injEq] at h
          refine ⟨v0, ?_, getPath_setPath segs x repl v0 hsp⟩
          rw [← h]; simp
  | x :: restX, i + 1, segs, repl, xs', h => by
      simp only [setIdx] at h
      cases hsi : setIdx restX i segs repl with
      | none => rw [hsi] at h; exact absurd h (by simp)
      | some xs'' =>
          rw [hsi] at h
          simp only [Option.map_some', Option.some.injEq] at h
          obtain ⟨v', hl, hg⟩ := getPath_setIdx restX i segs repl xs'' hsi
          refine ⟨v', ?_, hg⟩
          rw [← h]
          simpa using hl

end

/-- Claim C4: every successful `update_node_from_str(address, newText)` call
replaces the location matched by the address with a STRING value whose content
is exactly `newText` — `newText` is never parsed into structured form, whatever
it contains — and the returned state's flat index is the full rebuild
(`build_shadow_tree`) of the mutated document. -/
theorem update_node_from_str_correct (st : AppState) (json_path : List PathSeg)
    (new_json : List Char) (st' : AppState)
    (h : update_node_from_str st json_path new_json = some st') :
    ∃ dom', st'.dom = some dom' ∧
      getPath json_path dom' = some (.str new_json) ∧
      st'.tree_flat = build_shadow_tree dom' := by
  unfold update_node_from_str at h
  split at h
  · exact absurd h (by simp)
  next dom hdom =>
    split at h
    · exact absurd h (by simp)
    next v hget =>
      split at h
      · exact absurd h (by simp)
      next dom' hset =>
        simp only [Option.some.injEq] at h
        subst h
        exact ⟨dom', rfl, getPath_setPath json_path dom (.str new_json) dom' hset, rfl⟩

/-- C4 witness state: document `{"a": "x"}`. -/
def wStC4 : AppState :=
  { source_path := none, original_file_path := none,
    dom := some (Json.obj [(cs "a", .str (cs "x"))]), tree_flat := [] }

/-- C4 witness replacement text: the JSON-object-shaped text `{"b": 1}` —
stored as a literal string, not parsed. -/
def wTextC4 : List Char := cs "\x7b\"b\": 1\x7d"

/-- The C4 witness document after mutation: field `a` now holds the literal
text as a string value. -/
def wDomC4 : Json := Json.obj [(cs "a", Json.str wTextC4)]

/-- The C4 witness state after mutation. -/
def wStC4' : AppState :=
  { source_path := none, original_file_path := none,
    dom := some wDomC4, tree_flat := build_shadow_tree wDomC4 }

/-- Witness for claim C4: updating `$.a` of `{"a": "x"}` with the
object-shaped text `{"b": 1}` succeeds, stores it as a string value
(string-typed, content exactly the text), and rebuilds the index. -/
theorem update_node_from_str_witness :
    getPath [PathSeg.field (cs "a")] wDomC4 = some (.str wTextC4) ∧
    wStC4'.tree_flat = build_shadow_tree wDomC4 := by
  obtain ⟨d, hd, hg, ht⟩ :=
    update_node_from_str_correct wStC4 [PathSeg.field (cs "a")] wTextC4 wStC4'
      (by rfl)
  rw [show wStC4'.dom = some wDomC4 from rfl] at hd
  injection hd with h2
  subst h2
  exact ⟨hg, ht⟩

/-! ## Claim C5: `process_writeback_in_background` (`src/main.rs`)

Only the per-entry loop is modelled (the code before it — parsing the two
input files — fails the whole call, which is outside the claim).  Each item of
the intermediate product contributes its optional `source_path` string;
`update_json_by_path` is the call boundary to the path mutator and is passed
in as `upd` (`none` = its `Err`).  The loop threads the mutable document and
the two counters through every entry; note the extra, undocumented skip
cases: a string value that trims to empty, and an item with no `source_path`
string. -/

/-- Rust `key.parse::<usize>()`: optional leading `+`, then one or more ASCII
digits (overflow, impossible for in-range sequence numbers, is not
modelled). -/
def parseUsize (s : List Char) : Option Nat :=
  let ds := match s with
    | c :: rest => if c = Char.ofNat 0x2B then rest else s
    | [] => s
  if ds.isEmpty then none
  else if ds.all (fun c => Char.ofNat 0x30 ≤ c && c ≤ Char.ofNat 0x39) then
    some (ds.foldl (fun acc c => acc * 10 + (c.val.toNat - 0x30)) 0)
  else none

/-- The slice of a stage-2 item the writeback loop reads:
`item.get("source_path").and_then(|v| v.as_str())`. -/
structure WbItem : Type where
  source_path : Option (List Char)
deriving DecidableEq

/-- Value validation of one uploaded entry: a string passes unless it trims
to empty, booleans and numbers are rendered to text, `null` and structured
values are rejected. -/
def wbValueText : Json → Option (List Char)
  | .str s => if (rustTrim s).isEmpty then none else some s
  | .bool b => some (cs (toString b))
  | .num n => some (cs n.repr)
  | .null => none
  | .obj _ => none
  | .arr _ => none

/-- One iteration of the writeback loop: state is
`(document, modified_count, skipped_count)`. -/
def wbStep (upd : Json → List Char → List Char → Option Json)
    (items : List WbItem) (st : Json × Nat × Nat) (e : (List Char) × Json) :
    Json × Nat × Nat :=
  match parseUsize e.1 with
  | none => (st.1, st.2.1, st.2.2 + 1)
  | some seq =>
      match items[seq]? with
      | none => (st.1, st.2.1, st.2.2 + 1)
      | some item =>
          match item.source_path with
          | none => (st.1, st.2.1, st.2.2 + 1)
          | some sp =>
              match wbValueText e.2 with
              | none => (st.1, st.2.1, st.2.2 + 1)
              | some nv =>
                  match upd st.1 sp nv with
                  | none => (st.1, st.2.1, st.2.2 + 1)
                  | some dom' => (dom', st.2.1 + 1, st.2.2)

/-- The whole writeback loop over all uploaded entries. -/
def process_writeback (upd : Json → List Char → List Char → Option Json)
    (dom0 : Json) (entries : List ((List Char) × Json)) (items : List WbItem) :
    Json × Nat × Nat :=
  entries.foldl (wbStep upd items) (dom0, 0, 0)

/-- The amended per-entry skip condition: bad sequence key, no item at that
sequence number, item without a source address, rejected value (null,
object, array, or a string that trims to empty), or a failing update. -/
def wbSkip (upd : Json → List Char → List Char → Option Json)
    (items : List WbItem) (dom : Json) (e : (List Char) × Json) : Bool :=
  match parseUsize e.1 with
  | none => true
  | some seq =>
      match items[seq]? with
      | none => true
      | some item =>
          match item.source_path with
          | none => true
          | some sp =>
              match wbValueText e.2 with
              | none => true
              | some nv => (upd dom sp nv).isNone

theorem wbStep_classify (upd : Json → List Char → List Char → Option Json)
    (items : List WbItem) (dom : Json) (m s : Nat) (e : (List Char) × Json) :
    (wbSkip upd items dom e = true ∧
       wbStep upd items (dom, m, s) e = (dom, m, s + 1) ∧
       wbStep upd items (dom, 0, 0) e = (dom, 0, 1)) ∨
    (wbSkip upd items dom e = false ∧
       ∃ dom', wbStep upd items (dom, m, s) e = (dom', m + 1, s) ∧
         wbStep upd items (dom, 0, 0) e = (dom', 1, 0)) := by
  rcases e with ⟨key, v⟩
  simp only [wbSkip, wbStep]
  repeat' split
  all_goals
    first
      | exact Or.inl ⟨rfl, rfl, rfl⟩
      | (rename_i heq; exact Or.inl ⟨by rw [heq]; rfl, rfl, rfl⟩)
      | (rename_i d heq; exact Or.inr ⟨by rw [heq]; rfl, d, rfl, rfl⟩)

theorem wbStep_shift (upd : Json → List Char → List Char → Option Json)
    (items : List WbItem) (dom : Json) (m s : Nat) (e : (List Char) × Json) :
    wbStep upd items (dom, m, s) e =
      ((wbStep upd items (dom, 0, 0) e).1,
       m + (wbStep upd items (dom, 0, 0) e).2.1,
       s + (wbStep upd items (dom, 0, 0) e).2.2) := by
  rcases wbStep_classify upd items dom m s e with ⟨_, h1, h0⟩ | ⟨_, dom', h1, h0⟩
  · rw [h1, h0]; simp
  · rw [h1, h0]; simp

theorem wbStep_sum (upd : Json → List Char → List Char → Option Json)
    (items : List WbItem) (dom : Json) (e : (List Char) × Json) :
    (wbStep upd items (dom, 0, 0) e).2.1 + (wbStep upd items (dom, 0, 0) e).2.2
      = 1 := by
  rcases wbStep_classify upd items dom 0 0 e with ⟨_, _, h0⟩ | ⟨_, dom', _, h0⟩
  · rw [h0]; simp
  · rw [h0]; simp

theorem wbStep_of_skip (upd : Json → List Char → List Char → Option Json)
    (items : List WbItem) (dom : Json) (m s : Nat) (e : (List Char) × Json)
    (h : wbSkip upd items dom e = true) :
    wbStep upd items (dom, m, s) e = (dom, m, s + 1) := by
  rcases wbStep_classify upd items dom m s e with ⟨_, h1, _⟩ | ⟨hf, _⟩
  · exact h1
  · rw [h] at hf; exact absurd hf (by simp)

theorem wbStep_of_apply (upd : Json → List Char → List Char → Option Json)
    (items : List WbItem) (dom : Json) (m s : Nat) (e : (List Char) × Json)
    (h : wbSkip upd items dom e = false) :
    ∃ dom', wbStep upd items (dom, m, s) e = (dom', m + 1, s) := by
  rcases wbStep_classify upd items dom m s e with ⟨ht, _⟩ | ⟨_, dom', h1, _⟩
  · rw [h] at ht; exact absurd ht (by simp)
  · exact ⟨dom', h1⟩

theorem foldl_wbStep_shift (upd : Json → List Char → List Char → Option Json)
    (items : List WbItem) :
    ∀ (entries : List ((List Char) × Json)) (dom : Json) (m s : Nat),
      entries.foldl (wbStep upd items) (dom, m, s) =
        ((entries.foldl (wbStep upd items) (dom, 0, 0)).1,
         m + (entries.foldl (wbStep upd items) (dom, 0, 0)).2.1,
         s + (entries.foldl (wbStep upd items) (dom, 0, 0)).2.2)
  | [], dom, m, s => by simp
  | e :: rest, dom, m, s => by
      rw [List.foldl_cons, List.foldl_cons, wbStep_shift upd items dom m s e]
      rcases hw : wbStep upd items (dom, 0, 0) e with ⟨d1, a1, b1⟩
      rw [foldl_wbStep_shift upd items rest d1 (m + a1) (s + b1),
        foldl_wbStep_shift upd items rest d1 a1 b1]
      simp [Nat.add_assoc]

theorem process_writeback_total (upd : Json → List Char → List Char → Option Json)
    (items : List WbItem) :
    ∀ (entries : List ((List Char) × Json)) (dom : Json),
      (process_writeback upd dom entries items).2.1 +
        (process_writeback upd dom entries items).2.2 = entries.length
  | [], dom => by simp [process_writeback]
  | e :: rest, dom => by
      unfold process_writeback
      rw [List.foldl_cons]
      rcases hw : wbStep upd items (dom, 0, 0) e with ⟨d1, a1, b1⟩
      have hsum : a1 + b1 = 1 := by
        have := wbStep_sum upd items dom e
        rw [hw] at this
        exact this
      rw [foldl_wbStep_shift upd items rest d1 a1 b1]
      have hrec := process_writeback_total upd items rest d1
      unfold process_writeback at hrec
      simp only [List.length_cons]
      omega

/-- Claim C5 (amended): the corrections-apply loop never terminates with an
error — it returns aggregate counts with `modified + skipped` equal to the
number of uploaded entries; an entry in any skip category (key not a sequence
number, sequence number matching no item, item without a source address,
value null/object/array or a string that trims to empty, or a failing source
update) is skipped individually, leaving the document untouched and
processing the remaining entries exactly as if the entry were absent; an
entry in no skip category is applied (modified count incremented, document
updated) and processing continues on the updated document. -/
theorem process_writeback_spec (upd : Json → List Char → List Char → Option Json)
    (items : List WbItem) :
    (∀ (dom0 : Json) (entries : List ((List Char) × Json)),
        (process_writeback upd dom0 entries items).2.1 +
          (process_writeback upd dom0 entries items).2.2 = entries.length) ∧
    (∀ (dom0 : Json) (e : (List Char) × Json)
        (rest : List ((List Char) × Json)),
        wbSkip upd items dom0 e = true →
        process_writeback upd dom0 (e :: rest) items =
          ((process_writeback upd dom0 rest items).1,
           (process_writeback upd dom0 rest items).2.1,
           (process_writeback upd dom0 rest items).2.2 + 1)) ∧
    (∀ (dom0 : Json) (e : (List Char) × Json)
        (rest : List ((List Char) × Json)),
        wbSkip upd items dom0 e = false →
        ∃ dom', process_writeback upd dom0 (e :: rest) items =
          ((process_writeback upd dom' rest items).1,
           (process_writeback upd dom' rest items).2.1 + 1,
           (process_writeback upd dom' rest items).2.2)) := by
  refine ⟨fun dom0 entries => process_writeback_total upd items entries dom0,
    fun dom0 e rest h => ?_, fun dom0 e rest h => ?_⟩
  · unfold process_writeback
    rw [List.foldl_cons, wbStep_of_skip upd items dom0 0 0 e h,
      foldl_wbStep_shift upd items rest dom0 0 1]
    rcases List.foldl (wbStep upd items) (dom0, 0, 0) rest with ⟨d, a, b⟩
    simp [Nat.add_comm]
  · obtain ⟨dom', hd⟩ := wbStep_of_apply upd items dom0 0 0 e h
    refine ⟨dom', ?_⟩
    unfold process_writeback
    rw [List.foldl_cons, hd, foldl_wbStep_shift upd items rest dom' 1 0]
    rcases List.foldl (wbStep upd items) (dom', 0, 0) rest with ⟨d, a, b⟩
    simp [Nat.add_comm]

/-- Bool marker for the value kinds the claim says are rejected
(null, object, array). -/
def claimRejectedValue : Json → Bool
  | .null => true
  | .obj _ => true
  | .arr _ => true
  | _ => false

/-- Claim C5, counterexample to the claim as stated: the uploaded entry
`"0" ↦ " "` has a parseable key, a matching item with an updatable source
address, and a plain string value (not null/object/array), so by the claim it
must be applied; the code skips it (strings that trim to empty are rejected),
returning modified 0, skipped 1. -/
theorem process_writeback_whitespace_cex :
    process_writeback (fun d _ _ => some d) Json.null
        [(cs "0", .str (cs " "))] [{ source_path := some (cs "$.a") }]
      = (Json.null, 0, 1) ∧
    parseUsize (cs "0") = some 0 ∧
    ([({ source_path := some (cs "$.a") } : WbItem)][0]?).isSome = true ∧
    claimRejectedValue (.str (cs " ")) = false ∧
    (fun (d : Json) (_ _ : List Char) => some d) Json.null (cs "$.a") (cs " ")
      = some Json.null :=
  ⟨rfl, by decide, rfl, rfl, rfl⟩

/-- C5 witness update oracle: always succeeds, installing `Json.bool true`. -/
def wUpdC5 : Json → List Char → List Char → Option Json :=
  fun _ _ _ => some (Json.bool true)

/-- C5 witness items: one item with an updatable source address. -/
def wItemsC5 : List WbItem := [{ source_path := some (cs "$.a") }]

/-- C5 witness entry in a skip category: its key is not a sequence number. -/
def wEntrySkip : (List Char) × Json := (cs "bad", .str (cs "v"))

/-- C5 witness entry in no skip category. -/
def wEntryGood : (List Char) × Json := (cs "0", .str (cs "v"))

/-- Witness for claim C5: on the batch `[bad ↦ "v", 0 ↦ "v"]` the bad-key
entry is skipped while the rest of the batch still proceeds, and the
aggregate counts satisfy `modified + skipped = 2`. -/
theorem process_writeback_spec_witness :
    process_writeback wUpdC5 Json.null [wEntrySkip, wEntryGood] wItemsC5
      = ((process_writeback wUpdC5 Json.null [wEntryGood] wItemsC5).1,
         (process_writeback wUpdC5 Json.null [wEntryGood] wItemsC5).2.1,
         (process_writeback wUpdC5 Json.null [wEntryGood] wItemsC5).2.2 + 1) ∧
    (process_writeback wUpdC5 Json.null [wEntrySkip, wEntryGood] wItemsC5).2.1 +
      (process_writeback wUpdC5 Json.null [wEntrySkip, wEntryGood] wItemsC5).2.2
      = 2 :=
  ⟨(process_writeback_spec wUpdC5 wItemsC5).2.1 Json.null wEntrySkip [wEntryGood]
     (by rfl),
   (process_writeback_spec wUpdC5 wItemsC5).1 Json.null [wEntrySkip, wEntryGood]⟩

/-! ## Claim C6: the Projection Transform (`handle_transform_pressed`,
`src/main.rs`)

The handler parses the intermediate artifact's text (external serde), reads
`items`, and for each item inserts
`seq.to_string() ↦ Value::String(name_value)` into a `BTreeMap<String, _>`,
which orders keys lexicographically byte-wise over their UTF-8 encodings —
for decimal-digit keys this is exactly code-point lexicographic order.  The
map is modelled as a key-sorted association list with `btInsert`. -/

/-- The two fields the transform reads from one parsed item:
`item.get("seq").and_then(as_u64)` and `item.get("name").and_then(as_str)`. -/
structure TransformItem : Type where
  seq : Option Nat
  name : Option (List Char)
deriving DecidableEq

/-- Rust `String` ordering: lexicographic, byte-wise over UTF-8, which agrees
with code-point lexicographic order. -/
def strLt : List Char → List Char → Bool
  | [], [] => false
  | [], _ :: _ => true
  | _ :: _, [] => false
  | a :: as, b :: bs => if a < b then true else if b < a then false else strLt as bs

/-- `BTreeMap::insert` on a key-sorted association list (replaces on equal
keys). -/
def btInsert (k : List Char) (v : Json) :
    List ((List Char) × Json) → List ((List Char) × Json)
  | [] => [(k, v)]
  | (k', v') :: rest =>
      if strLt k k' then (k, v) :: (k', v') :: rest
      else if k = k' then (k, v) :: rest
      else (k', v') :: btInsert k v rest

/-- `BTreeMap::get`-style lookup on the association list. -/
def btFind (k : List Char) : List ((List Char) × Json) → Option Json
  | [] => none
  | (k', v) :: rest => if k' = k then some v else btFind k rest

/-- The transform's key for one item: `seq.unwrap_or(0).to_string()`. -/
def transformKey (it : TransformItem) : List Char :=
  cs (Nat.repr (it.seq.getD 0))

/-- The transform's value for one item:
`Value::String(name.unwrap_or(""))`. -/
def transformVal (it : TransformItem) : Json :=
  .str (it.name.getD [])

/-- `handle_transform_pressed`, item loop: fold every item into the sorted
map (the final object serializes the entries in this key order). -/
def handle_transform (items : List TransformItem) :
    List ((List Char) × Json) :=
  items.foldl (fun out it => btInsert (transformKey it) (transformVal it) out) []

theorem strLt_irrefl : ∀ s : List Char, strLt s s = false
  | [] => rfl
  | a :: as => by simp [strLt, strLt_irrefl as]

theorem strLt_trans : ∀ {a b c : List Char},
    strLt a b = true → strLt b c = true → strLt a c = true
  | [], [], _, h1, _ => by simp [strLt] at h1
  | [], _ :: _, [], _, h2 => by simp [strLt] at h2
  | [], _ :: _, _ :: _, _, _ => rfl
  | _ :: _, [], _, h1, _ => by simp [strLt] at h1
  | _ :: _, _ :: _, [], _, h2 => by simp [strLt] at h2
  | x :: xs, y :: ys, z :: zs, h1, h2 => by
      simp only [strLt] at h1 h2 ⊢
      rcases lt_trichotomy x y with hxy | hxy | hxy
      · rcases lt_trichotomy y z with hyz | hyz | hyz
        · simp [lt_trans hxy hyz]
        · subst hyz
          simp [hxy]
        · rw [if_neg (asymm hyz), if_pos hyz] at h2
          exact absurd h2 (by simp)
      · subst hxy
        rw [if_neg (lt_irrefl x), if_neg (lt_irrefl x)] at h1
        rcases lt_trichotomy x z with hxz | hxz | hxz
        · simp [hxz]
        · subst hxz
          rw [if_neg (lt_irrefl x), if_neg (lt_irrefl x)] at h2 ⊢
          exact strLt_trans h1 h2
        · rw [if_neg (asymm hxz), if_pos hxz] at h2
          exact absurd h2 (by simp)
      · rw [if_neg (asymm hxy), if_pos hxy] at h1
        exact absurd h1 (by simp)

theorem strLt_total : ∀ a b : List Char,
    strLt a b = true ∨ a = b ∨ strLt b a = true
  | [], [] => Or.inr (Or.inl rfl)
  | [], _ :: _ => Or.inl rfl
  | _ :: _, [] => Or.inr (Or.inr rfl)
  | a :: as, b :: bs => by
      by_cases hab : a < b
      · exact Or.inl (by simp [strLt, hab])
      · by_cases hba : b < a
        · exact Or.inr (Or.inr (by simp [strLt, hba]))
        · have : a = b := le_antisymm (not_lt.mp hba) (not_lt.mp hab)
          subst this
          rcases strLt_total as bs with h | h | h
          · exact Or.inl (by simp [strLt, h])
          · exact Or.inr (Or.inl (by rw [h]))
          · exact Or.inr (Or.inr (by simp [strLt, h]))

theorem btInsert_head (k : List Char) (v : Json)
    (m : List ((List Char) × Json)) :
    ∀ x ∈ (btInsert k v m).head?, x.1 = k ∨ ∃ y ∈ m.head?, x.1 = y.1 := by
  cases m with
  | nil => intro x hx; simp [btInsert] at hx; subst hx; exact Or.inl rfl
  | cons p rest =>
      rcases p with ⟨k', v'⟩
      intro x hx
      simp only [btInsert] at hx
      by_cases h1 : strLt k k' = true
      · rw [if_pos h1] at hx
        simp at hx; subst hx; exact Or.inl rfl
      · rw [if_neg h1] at hx
        by_cases h2 : k = k'
        · rw [if_pos h2] at hx
          simp at hx; subst hx; exact Or.inl rfl
        · rw [if_neg h2] at hx
          simp at hx; subst hx
          exact Or.inr ⟨(k', v'), by simp⟩

theorem btInsert_chain (k : List Char) (v : Json) :
    ∀ m : List ((List Char) × Json),
      List.Chain' (fun x y => strLt x.1 y.1 = true) m →
      List.Chain' (fun x y => strLt x.1 y.1 = true) (btInsert k v m)
  | [], _ => by simp [btInsert]
  | (k', v') :: rest, h => by
      rw [List.chain'_cons'] at h
      obtain ⟨hhead, htail⟩ := h
      simp only [btInsert]
      by_cases h1 : strLt k k' = true
      · rw [if_pos h1, List.chain'_cons']
        exact ⟨fun b hb => by simp at hb; subst hb; exact h1,
          List.chain'_cons'.mpr ⟨hhead, htail⟩⟩
      · rw [if_neg h1]
        by_cases h2 : k = k'
        · rw [if_pos h2, List.chain'_cons']
          subst h2
          exact ⟨hhead, htail⟩
        · rw [if_neg h2, List.chain'_cons']
          have hlt : strLt k' k = true := by
            rcases strLt_total k k' with h | h | h
            · exact absurd h h1
            · exact absurd h h2
            · exact h
          refine ⟨fun b hb => ?_, btInsert_chain k v rest htail⟩
          rcases btInsert_head k v rest b hb with hb1 | ⟨y, hy, hb2⟩
          · rw [hb1]; exact hlt
          · rw [hb2]; exact hhead y hy

theorem btFind_insert_self (k : List Char) (v : Json) :
    ∀ m : List ((List Char) × Json), btFind k (btInsert k v m) = some v
  | [] => by simp [btInsert, btFind]
  | (k', v') :: rest => by
      simp only [btInsert]
      by_cases h1 : strLt k k' = true
      · rw [if_pos h1]; simp [btFind]
      · rw [if_neg h1]
        by_cases h2 : k = k'
        · rw [if_pos h2]; simp [btFind]
        · rw [if_neg h2]
          have hne : ¬ (k' = k) := fun hh => h2 hh.symm
          simp [btFind, hne, btFind_insert_self k v rest]

theorem btFind_insert_ne (k0 k : List Char) (v : Json) (h : k0 ≠ k) :
    ∀ m : List ((List Char) × Json),
      btFind k0 (btInsert k v m) = btFind k0 m
  | [] => by
      have hk : ¬ (k = k0) := fun hh => h hh.symm
      simp [btInsert, btFind, hk]
  | (k', v') :: rest => by
      have hk : ¬ (k = k0) := fun hh => h hh.symm
      simp only [btInsert]
      by_cases h1 : strLt k k' = true
      · rw [if_pos h1]; simp [btFind, hk]
      · rw [if_neg h1]
        by_cases h2 : k = k'
        · rw [if_pos h2]; subst h2; simp [btFind, hk]
        · rw [if_neg h2]
          simp [btFind, btFind_insert_ne k0 k v h rest]

theorem transform_fold_ne (k0 : List Char) :
    ∀ (items : List TransformItem) (m : List ((List Char) × Json)),
      (∀ it ∈ items, transformKey it ≠ k0) →
      btFind k0 (items.foldl
        (fun out it => btInsert (transformKey it) (transformVal it) out) m) =
        btFind k0 m
  | [], m, _ => rfl
  | it :: rest, m, h => by
      rw [List.foldl_cons,
        transform_fold_ne k0 rest _ (fun x hx => h x (List.mem_cons_of_mem it hx)),
        btFind_insert_ne k0 _ _ (fun hh => h it (List.mem_cons_self it rest) hh.symm) m]

theorem transform_fold_lookup :
    ∀ (items : List TransformItem) (m : List ((List Char) × Json)),
      (items.map transformKey).Nodup →
      ∀ it ∈ items,
        btFind (transformKey it)
          (items.foldl
            (fun out it => btInsert (transformKey it) (transformVal it) out) m)
          = some (transformVal it)
  | [], m, _, it, hit => absurd hit (by simp)
  | it0 :: rest, m, hnd, it, hit => by
      rw [List.map_cons, List.nodup_cons] at hnd
      obtain ⟨hnotin, htail⟩ := hnd
      rw [List.foldl_cons]
      rcases List.mem_cons.mp hit with heq | hmem
      · subst heq
        rw [transform_fold_ne (transformKey it) rest _
          (fun x hx heq => hnotin (heq ▸ List.mem_map_of_mem transformKey hx))]
        exact btFind_insert_self _ _ m
      · exact transform_fold_lookup rest _ htail it hmem

theorem transform_fold_chain :
    ∀ (items : List TransformItem) (m : List ((List Char) × Json)),
      List.Chain' (fun x y => strLt x.1 y.1 = true) m →
      List.Chain' (fun x y => strLt x.1 y.1 = true)
        (items.foldl
          (fun out it => btInsert (transformKey it) (transformVal it) out) m)
  | [], m, h => h
  | it :: rest, m, h => by
      rw [List.foldl_cons]
      exact transform_fold_chain rest _ (btInsert_chain _ _ m h)

/-- Claim C6: for an artifact whose items carry pairwise-distinct sequence
numbers (as every artifact produced by the pipeline does), the Projection
Transform builds an object mapping each item's sequence number, rendered as
decimal text, to that item's resolved text value, and the serialized entries
are ordered lexicographically over the decimal text (any key
lexicographically smaller than another appears strictly earlier) — numeric
order is NOT used. -/
theorem handle_transform_correct (items : List TransformItem)
    (hnd : (items.map transformKey).Nodup) :
    (∀ it ∈ items, btFind (transformKey it) (handle_transform items)
        = some (transformVal it)) ∧
    List.Chain' (fun x y => strLt x.1 y.1 = true) (handle_transform items) ∧
    (∀ (i j : Nat) (x y : (List Char) × Json),
        (handle_transform items)[i]? = some x →
        (handle_transform items)[j]? = some y →
        strLt x.1 y.1 = true → i < j) := by
  have hchain : List.Chain' (fun x y => strLt x.1 y.1 = true)
      (handle_transform items) := transform_fold_chain items [] (by simp)
  refine ⟨fun it hit => transform_fold_lookup items [] hnd it hit, hchain, ?_⟩
  intro i j x y hi hj hxy
  haveI : IsTrans ((List Char) × Json) (fun x y => strLt x.1 y.1 = true) :=
    ⟨fun a b c hab hbc => strLt_trans hab hbc⟩
  have hpw := List.chain'_iff_pairwise.mp hchain
  rw [List.pairwise_iff_getElem] at hpw
  obtain ⟨hilen, hix⟩ := List.getElem?_eq_some_iff.mp hi
  obtain ⟨hjlen, hjy⟩ := List.getElem?_eq_some_iff.mp hj
  by_contra hij
  rcases Nat.lt_or_ge j i with hji | hji
  · have := hpw j i hjlen hilen hji
    rw [hix, hjy] at this
    exact absurd (strLt_trans hxy this) (by simp [strLt_irrefl])
  · have : i = j := by omega
    subst this
    rw [hix] at hjy
    subst hjy
    exact absurd hxy (by simp [strLt_irrefl])

/-- C6 witness items: eleven items, sequence numbers 0 through 10. -/
def wItemsC6 : List TransformItem :=
  [ { seq := some 0, name := some (cs "n0") },
    { seq := some 1, name := some (cs "n1") },
    { seq := some 2, name := some (cs "n2") },
    { seq := some 3, name := some (cs "n3") },
    { seq := some 4, name := some (cs "n4") },
    { seq := some 5, name := some (cs "n5") },
    { seq := some 6, name := some (cs "n6") },
    { seq := some 7, name := some (cs "n7") },
    { seq := some 8, name := some (cs "n8") },
    { seq := some 9, name := some (cs "n9") },
    { seq := some 10, name := some (cs "n10") } ]

/-- Witness for claim C6: with 11 items the serialized key order is
`0, 1, 10, 2, …, 9` — the key `"10"` sorts before the key `"2"`
(lexicographic, not numeric). -/
theorem handle_transform_correct_witness :
    ((∀ it ∈ wItemsC6, btFind (transformKey it) (handle_transform wItemsC6)
        = some (transformVal it)) ∧
     List.Chain' (fun x y => strLt x.1 y.1 = true) (handle_transform wItemsC6) ∧
     (∀ (i j : Nat) (x y : (List Char) × Json),
        (handle_transform wItemsC6)[i]? = some x →
        (handle_transform wItemsC6)[j]? = some y →
        strLt x.1 y.1 = true → i < j)) ∧
    (handle_transform wItemsC6).map Prod.fst =
      [cs "0", cs "1", cs "10", cs "2", cs "3", cs "4", cs "5", cs "6",
       cs "7", cs "8", cs "9"] :=
  ⟨handle_transform_correct wItemsC6 (by decide), by decide⟩

/-! ## Claim C8: address construction in `build_shadow_tree`

The claim is about the parent/child address relation inside the produced flat
index: the root node has address `$`, and every other node's address is its
parent's address plus its own suffix.  The parent of a node in a pre-order
index is the nearest preceding node of smaller depth (of depth exactly one
less); `ChildLink` states the address rule along one such edge. -/

/-- The address relation between a node and its parent in the flat index:
depth one more than the parent; for an object parent the address appends the
field suffix of the node's name (dot-notation for `[A-Za-z0-9_]*` names,
bracket-notation otherwise); for an array parent the node is the `m`-th child
(`m` = number of earlier siblings) and the address appends `[m]`, which is
also the node's name. -/
def ChildLink (par child : JsonTreeNode) (m : Nat) : Prop :=
  child.depth = par.depth + 1 ∧
  ((par.kind = .Object ∧ child.path = par.path ++ fieldSuffix child.name) ∨
   (par.kind = .Array ∧ child.name = idxSuffix m ∧
      child.path = par.path ++ idxSuffix m))

mutual

theorem walk_depth_ge : ∀ (v : Json) (p n : List Char) (d : Nat),
    ∀ x ∈ walk v p n d, d ≤ x.depth
  | v, p, n, d => by
      intro x hx
      rw [walk] at hx
      rcases List.mem_cons.mp hx with h | h
      · subst h; simp [mkNode]
      · exact le_trans (Nat.le_succ d) (walkRest_depth_gt v p d x h)

theorem walkRest_depth_gt : ∀ (v : Json) (p : List Char) (d : Nat),
    ∀ x ∈ walkRest v p d, d + 1 ≤ x.depth
  | .obj es, p, d => by
      intro x hx
      rw [walkRest] at hx
      exact walkObj_depth_gt es p d x hx
  | .arr xs, p, d => by
      intro x hx
      rw [walkRest] at hx
      exact walkArr_depth_gt xs p 0 d x hx
  | .null, p, d => by intro x hx; simp [walkRest] at hx
  | .bool b, p, d => by intro x hx; simp [walkRest] at hx
  | .num nn, p, d => by intro x hx; simp [walkRest] at hx
  | .str s, p, d => by intro x hx; simp [walkRest] at hx

theorem walkObj_depth_gt : ∀ (es : List ((List Char) × Json)) (p : List Char)
    (d : Nat), ∀ x ∈ walkObj es p d, d + 1 ≤ x.depth
  | [], p, d => by intro x hx; rw [walkObj] at hx; simp at hx
  | (k, c) :: rest, p, d => by
      intro x hx
      rw [walkObj] at hx
      rcases List.mem_append.mp hx with h | h
      · exact walk_depth_ge c (p ++ fieldSuffix k) k (d + 1) x h
      · exact walkObj_depth_gt rest p d x h

theorem walkArr_depth_gt : ∀ (xs : List Json) (p : List Char) (i d : Nat),
    ∀ x ∈ walkArr xs p i d, d + 1 ≤ x.depth
  | [], p, i, d => by intro x hx; rw [walkArr] at hx; simp at hx
  | c :: rest, p, i, d => by
      intro x hx
      rw [walkArr] at hx
      rcases List.mem_append.mp hx with h | h
      · exact walk_depth_ge c (p ++ idxSuffix i) (idxSuffix i) (d + 1) x h
      · exact walkArr_depth_gt rest p (i + 1) d x h

end

theorem walk_filter_len (v : Json) (p n : List Char) (d : Nat) :
    ((walk v p n d).filter (fun x => x.depth == d)).length = 1 := by
  rw [walk, List.filter_cons]
  have hhead : ((mkNode n p v d).depth == d) = true := by simp [mkNode]
  rw [if_pos hhead]
  have htail : (walkRest v p d).filter (fun x => x.depth == d) = [] := by
    rw [List.filter_eq_nil_iff]
    intro x hx
    have := walkRest_depth_gt v p d x hx
    simp
    omega
  rw [htail]
  rfl

theorem walkRest_null (p : List Char) (d : Nat) : walkRest Json.null p d = [] := by
  simp [walkRest]

theorem walkRest_bool (b : Bool) (p : List Char) (d : Nat) :
    walkRest (Json.bool b) p d = [] := by
  simp [walkRest]

theorem walkRest_num (nn : Int) (p : List Char) (d : Nat) :
    walkRest (Json.num nn) p d = [] := by
  simp [walkRest]

theorem walkRest_str (s : List Char) (p : List Char) (d : Nat) :
    walkRest (Json.str s) p d = [] := by
  simp [walkRest]

/-- Decomposing a concatenation around a distinguished element. -/
theorem append_eq_middle {α : Type} :
    ∀ (A : List α) (B pre post : List α) (child : α),
      A ++ B = pre ++ child :: post →
      (∃ postA, A = pre ++ child :: postA) ∨
      (∃ preB, pre = A ++ preB ∧ B = preB ++ child :: post)
  | [], B, pre, post, child, h => Or.inr ⟨pre, rfl, h⟩
  | a :: A', B, pre, post, child, h => by
      cases pre with
      | nil =>
          simp only [List.nil_append] at h ⊢
          injection h with h1 h2
          subst h1
          exact Or.inl ⟨A', rfl⟩
      | cons q pre' =>
          simp only [List.cons_append] at h
          injection h with h1 h2
          subst h1
          rcases append_eq_middle A' B pre' post child h2 with ⟨postA, hA⟩ | ⟨preB, hp, hB⟩
          · exact Or.inl ⟨postA, by rw [hA]; rfl⟩
          · exact Or.inr ⟨preB, by rw [hp]; rfl, hB⟩

/-- There is a parent for `child` inside the prefix `pre`: a node of depth one
less, with only deeper nodes after it in `pre`, linked by the address rule
(`m` counts the earlier siblings between parent and child). -/
def ParentAt (pre : List JsonTreeNode) (child : JsonTreeNode) : Prop :=
  ∃ pre1 par mid, pre = pre1 ++ par :: mid ∧
    (∀ x ∈ mid, par.depth < x.depth) ∧
    ChildLink par child ((mid.filter (fun x => x.depth == child.depth)).length)

/-- Every non-head node of the list has a parent in its prefix. -/
def ParentOk (l : List JsonTreeNode) : Prop :=
  ∀ pre child post, l = pre ++ child :: post → pre ≠ [] → ParentAt pre child

theorem parentAt_lift (A pre : List JsonTreeNode) (child : JsonTreeNode)
    (h : ParentAt pre child) : ParentAt (A ++ pre) child := by
  obtain ⟨pre1, par, mid, h1, h2, h3⟩ := h
  exact ⟨A ++ pre1, par, mid, by rw [h1, List.append_assoc], h2, h3⟩

mutual

theorem walk_parentOk : ∀ (v : Json) (p n : List Char) (d : Nat),
    ParentOk (walk v p n d)
  | v, p, n, d => by
      intro pre child post heq hne
      rw [walk] at heq
      cases pre with
      | nil => exact absurd rfl hne
      | cons q pre' =>
          rw [List.cons_append] at heq
          injection heq with h1 h2
          subst h1
          cases v with
          | obj es =>
              rw [walkRest] at h2
              rcases walkObj_parentOk es p d pre' child post h2 with
                hpar | ⟨hd, hall, hpath⟩
              · obtain ⟨pre1, par, mid, hh1, hh2, hh3⟩ := hpar
                exact ⟨mkNode n p (.obj es) d :: pre1, par, mid,
                  by rw [hh1]; rfl, hh2, hh3⟩
              · refine ⟨[], mkNode n p (.obj es) d, pre', rfl, ?_, ?_, ?_⟩
                · intro x hx
                  have := hall x hx
                  simp only [mkNode]
                  omega
                · simp only [mkNode, hd]
                · exact Or.inl ⟨rfl, hpath⟩
          | arr xs =>
              rw [walkRest] at h2
              rcases walkArr_parentOk xs p 0 d pre' child post h2 with
                hpar | ⟨hd, hall, hname, hpath⟩
              · obtain ⟨pre1, par, mid, hh1, hh2, hh3⟩ := hpar
                exact ⟨mkNode n p (.arr xs) d :: pre1, par, mid,
                  by rw [hh1]; rfl, hh2, hh3⟩
              · refine ⟨[], mkNode n p (.arr xs) d, pre', rfl, ?_, ?_, ?_⟩
                · intro x hx
                  have := hall x hx
                  simp only [mkNode]
                  omega
                · simp only [mkNode, hd]
                · refine Or.inr ⟨rfl, ?_, ?_⟩
                  · rw [hname, Nat.zero_add]
                  · rw [hpath, hname, Nat.zero_add]
                    rfl
          | null => rw [walkRest_null] at h2
                    exact absurd h2 (by cases pre' <;> simp)
          | bool b => rw [walkRest_bool] at h2
                      exact absurd h2 (by cases pre' <;> simp)
          | num nn => rw [walkRest_num] at h2
                      exact absurd h2 (by cases pre' <;> simp)
          | str s => rw [walkRest_str] at h2
                     exact absurd h2 (by cases pre' <;> simp)

theorem walkObj_parentOk : ∀ (es : List ((List Char) × Json)) (p : List Char)
    (d : Nat) (pre : List JsonTreeNode) (child : JsonTreeNode)
    (post : List JsonTreeNode), walkObj es p d = pre ++ child :: post →
    ParentAt pre child ∨
      (child.depth = d + 1 ∧ (∀ x ∈ pre, d + 1 ≤ x.depth) ∧
        child.path = p ++ fieldSuffix child.name)
  | [], p, d, pre, child, post, h => by
      rw [walkObj] at h
      exact absurd h (by cases pre <;> simp)
  | (k, c) :: rest, p, d, pre, child, post, h => by
      rw [walkObj] at h
      rcases append_eq_middle _ _ pre post child h with ⟨postA, hA⟩ | ⟨preB, hp, hB⟩
      · cases pre with
        | nil =>
            rw [List.nil_append, walk] at hA
            injection hA with hA1 hA2
            subst hA1
            right
            refine ⟨by simp [mkNode], by simp, by simp [mkNode]⟩
        | cons q pre'' =>
            exact Or.inl (walk_parentOk c (p ++ fieldSuffix k) k (d + 1)
              (q :: pre'') child postA hA (by simp))
      · rcases walkObj_parentOk rest p d preB child post hB with
          hpar | ⟨hd, hall, hpath⟩
        · left; rw [hp]; exact parentAt_lift _ _ _ hpar
        · right
          refine ⟨hd, ?_, hpath⟩
          rw [hp]
          intro x hx
          rcases List.mem_append.mp hx with hxa | hxb
          · exact walk_depth_ge c (p ++ fieldSuffix k) k (d + 1) x hxa
          · exact hall x hxb

theorem walkArr_parentOk : ∀ (xs : List Json) (p : List Char) (i d : Nat)
    (pre : List JsonTreeNode) (child : JsonTreeNode)
    (post : List JsonTreeNode), walkArr xs p i d = pre ++ child :: post →
    ParentAt pre child ∨
      (child.depth = d + 1 ∧ (∀ x ∈ pre, d + 1 ≤ x.depth) ∧
        child.name =
          idxSuffix (i + (pre.filter (fun x => x.depth == child.depth)).length) ∧
        child.path = p ++ child.name)
  | [], p, i, d, pre, child, post, h => by
      rw [walkArr] at h
      exact absurd h (by cases pre <;> simp)
  | c :: rest, p, i, d, pre, child, post, h => by
      rw [walkArr] at h
      rcases append_eq_middle _ _ pre post child h with ⟨postA, hA⟩ | ⟨preB, hp, hB⟩
      · cases pre with
        | nil =>
            rw [List.nil_append, walk] at hA
            injection hA with hA1 hA2
            subst hA1
            right
            refine ⟨by simp [mkNode], by simp, ?_, by simp [mkNode]⟩
            simp only [List.filter_nil, List.length_nil, Nat.add_zero]
            simp [mkNode]
        | cons q pre'' =>
            exact Or.inl (walk_parentOk c (p ++ idxSuffix i) (idxSuffix i) (d + 1)
              (q :: pre'') child postA hA (by simp))
      · rcases walkArr_parentOk rest p (i + 1) d preB child post hB with
          hpar | ⟨hd, hall, hname, hpath⟩
        · left; rw [hp]; exact parentAt_lift _ _ _ hpar
        · right
          subst hp
          refine ⟨hd, ?_, ?_, hpath⟩
          · intro x hx
            rcases List.mem_append.mp hx with hxa | hxb
            · exact walk_depth_ge c (p ++ idxSuffix i) (idxSuffix i) (d + 1) x hxa
            · exact hall x hxb
          · rw [hname]
            congr 1
            rw [List.filter_append, List.length_append]
            have hwf : ((walk c (p ++ idxSuffix i) (idxSuffix i) (d + 1)).filter
                (fun x => x.depth == child.depth)).length = 1 := by
              simp only [hd]
              exact walk_filter_len c (p ++ idxSuffix i) (idxSuffix i) (d + 1)
            rw [hwf]
            omega

end

/-- Claim C8 (amended): in `build_shadow_tree`'s output, the first node has
address `$` and depth 0, and every other node has a parent — the nearest
preceding node of depth one less — whose address plus the node's own suffix
gives the node's address: `.key` for an object field whose key consists only
of `[A-Za-z0-9_]` characters (INCLUDING the empty key, since the
all-characters test is vacuously true on it), the bracket form `['key']`
with embedded single quotes escaped otherwise, and `[index]` (with `index`
the node's position among its siblings) for an array element. -/
theorem build_shadow_tree_addresses (doc : Json) (pre : List JsonTreeNode)
    (child : JsonTreeNode) (post : List JsonTreeNode)
    (h : build_shadow_tree doc = pre ++ child :: post) :
    (pre = [] → child.path = cs "$" ∧ child.depth = 0) ∧
    (pre ≠ [] → ParentAt pre child) := by
  constructor
  · intro hpre
    subst hpre
    rw [List.nil_append] at h
    unfold build_shadow_tree at h
    rw [walk] at h
    injection h with h1 h2
    rw [← h1]
    exact ⟨rfl, rfl⟩
  · intro hne
    exact walk_parentOk doc (cs "$") (cs "$") 0 pre child post h hne

/-- Claim C8, counterexample to the claim as stated: the empty object key
passes the `all`-characters test vacuously, so the code appends the
dot form, producing the address `$.` — not the bracket form `$['']` the
claim requires for the empty key. -/
theorem build_shadow_tree_empty_key_cex :
    (build_shadow_tree (Json.obj [(([] : List Char), Json.null)])).map (·.path)
      = [cs "$", cs "$."] ∧ cs "$." ≠ cs "$[\x27\x27]" := by
  constructor
  · simp only [build_shadow_tree, walk, walkRest, walkObj, walkRest_null]
    decide
  · decide

/-- C8 witness document `{"a": null}`. -/
def wDocC8 : Json := Json.obj [(cs "a", Json.null)]

/-- C8 witness root node. -/
def wRootC8 : JsonTreeNode := mkNode (cs "$") (cs "$") wDocC8 0

/-- C8 witness child node (field `a`). -/
def wChildC8 : JsonTreeNode :=
  mkNode (cs "a") (cs "$" ++ fieldSuffix (cs "a")) Json.null 1

/-- Witness for claim C8: in the index of `{"a": null}`, the field node has a
parent (the root) and its address is the root's address plus `.a`. -/
theorem build_shadow_tree_addresses_witness :
    (([wRootC8] : List JsonTreeNode) = [] →
        wChildC8.path = cs "$" ∧ wChildC8.depth = 0) ∧
    ([wRootC8] ≠ [] → ParentAt [wRootC8] wChildC8) :=
  build_shadow_tree_addresses wDocC8 [wRootC8] wChildC8 []
    (by simp only [build_shadow_tree, walk, walkRest, walkObj, walkRest_null,
          wDocC8, wRootC8, wChildC8]
        rfl)
